import Mathlib

/-!
Verification development for the wikilink interpretation engine of
`eleventy-plugin-interlinker` (`src/wikilink-parser.js`).  The JavaScript
source is shallowly embedded: strings are Lean `String`s manipulated through
their underlying `List Char`, the shared mutable side tables (dead-link set
and link cache) are threaded explicitly as a `ParserState`, thrown `Error`s
become an explicit `ParseError` sum, and the two external collaborators
(the page directory service from `find-page.js` and the filesystem used by
`findImageFile`) are abstracted as function parameters, since both sit
behind I/O boundaries the parser only observes through their results.
-/

/-! ### JavaScript string primitives

Models of the JavaScript string/array operations the parser uses, defined
over `List Char` so they compute by kernel reduction.  `isJsWs` covers the
whitespace characters relevant to `String.prototype.trim` and `\s`
(the ASCII class plus the common Unicode members; the parser only ever
trims ASCII whitespace). -/

def isJsWs (c : Char) : Bool :=
  c == ' ' || c == '\t' || c == '\n' || c == '\r' || c == '\x0b' || c == '\x0c' ||
  c == '\u00A0' || c == '\u2028' || c == '\u2029' || c == '\uFEFF'

/-- Model of `String.prototype.trim`: drop whitespace from both ends. -/
def jsTrim (s : String) : String :=
  ⟨((s.data.dropWhile isJsWs).reverse.dropWhile isJsWs).reverse⟩

/-- Model of `String.prototype.split(sep)` for a single-character separator:
`"a|b|".split('|') = ["a","b",""]` and `"".split('|') = [""]`. -/
def splitOnChar (sep : Char) : List Char → List (List Char)
  | [] => [[]]
  | c :: rest =>
    match splitOnChar sep rest with
    | [] => [[]]
    | h :: t => if c == sep then [] :: h :: t else (c :: h) :: t

/-- Model of `Array.prototype.join(sep)` for a single-character separator. -/
def joinChar (sep : Char) : List (List Char) → List Char
  | [] => []
  | [s] => s
  | s :: s2 :: rest => s ++ sep :: joinChar sep (s2 :: rest)

/-- Model of `String.prototype.replace(pat, rep)` with a *string* pattern: replaces
only the first (leftmost) occurrence; the string is returned unchanged when
the pattern does not occur.  (Used for the `'/#'`/`'/:'` escape removal;
the pattern is never empty there.) -/
def listReplaceFirst : List Char → List Char → List Char → List Char
  | [], _pat, _rep => []
  | c :: rest, pat, rep =>
    if pat.isPrefixOf (c :: rest) then rep ++ (c :: rest).drop pat.length
    else c :: listReplaceFirst rest pat rep

/-- Model of `String.prototype.startsWith`. -/
def jsStartsWith (s pre : String) : Bool := pre.data.isPrefixOf s.data

/-- Model of `String.prototype.endsWith`. -/
def jsEndsWith (s suf : String) : Bool := suf.data.isSuffixOf s.data

/-- Model of `String.prototype.toLowerCase` (ASCII; the image extensions compared
against are ASCII). -/
def jsToLower (s : String) : String := ⟨s.data.map Char.toLower⟩

/-- JavaScript truthiness of an optional string: `null`/`undefined` and the
empty string are falsy. -/
def optTruthy : Option String → Bool
  | some s => s != ""
  | none => false

/-! ### Data model

`WikilinkMeta` mirrors the record literal built by `parseSingle`;
JavaScript fields that start out `undefined` (`href`, `path`, `page`) are
`Option`s.  `exists` is a Lean keyword, so that field is spelled `exists'`. -/

structure PageData where
  title : Option String
deriving DecidableEq

/-- The slice of an 11ty page object that `parseSingle` reads
(`page.url`, `page.inputPath`, `page.data.title`). -/
structure Page where
  url : String
  inputPath : String
  data : PageData
deriving DecidableEq

/-- Result shape of the external `pageDirectory.findByLink(meta)`
collaborator (`find-page.js`, outside the embedded core). -/
structure FindRes where
  page : Option Page
  found : Bool
  foundByAlias : Bool
deriving DecidableEq

/-- Result shape of `findImageFile`. -/
structure ImageResult where
  exists' : Bool
  href : String
  fullPath : String
deriving DecidableEq

/-- Plugin options consulted by `parseSingle`: `opts.resolvingFns` (only
membership of its key set is ever tested, so it is modelled as the optional
list of registered names; `none` is a missing/undefined map) and
`opts.stubUrl`. -/
structure Opts where
  resolvingFns : Option (List String)
  stubUrl : String
deriving DecidableEq

structure WikilinkMeta where
  title : Option String
  name : String
  anchor : Option String
  link : String
  isEmbed : Bool
  isPath : Bool
  exists' : Bool
  resolvingFnName : String
  isImage : Bool
  href : Option String
  path : Option String
  page : Option Page
deriving DecidableEq

/-- The two shared, mutable side tables injected into the parser:
`deadLinks` (a JS `Set`, kept in insertion order) and `linkCache`
(a JS `Map` from raw token to record, kept in insertion order). -/
structure ParserState where
  deadLinks : List String
  linkCache : List (String × WikilinkMeta)
deriving DecidableEq

/-- The two `throw new Error(...)` sites of `parseSingle`, as a sum:
`missingContext` is the relative-lookup failure, `unresolvedResolver`
carries the unregistered prefix, the raw token and the referencing path. -/
inductive ParseError where
  | missingContext : ParseError
  | unresolvedResolver (fnName : String) (link : String) (filePathStem : Option String) : ParseError
deriving DecidableEq

/-- Template interpolation `${filePathStem}` renders `undefined` when the
argument was not supplied. -/
def fpsDisplay : Option String → String
  | some s => s
  | none => "undefined"

/-- The message of each thrown `Error`, exactly as interpolated in the
source. -/
def errMessage : ParseError → String
  | .missingContext => "Unable to do relative path lookup of wikilink."
  | .unresolvedResolver fnName link fps =>
      "Unable to find resolving fn [" ++ fnName ++ "] for wikilink " ++ link ++
        " on page [" ++ fpsDisplay fps ++ "]"

/-- The `pageDirectory` collaborator: `findByLink` observed as a function of the
meta record it is handed. -/
abbrev PageDirectory := WikilinkMeta → FindRes

/-- The filesystem search `findImageFile(imagePath, baseDir, filePathStem)`
abstracted over its I/O: given the image name and the referencing path it
either produces a result record or `null`.  (`baseDir` is the engine's
fixed `inputDir`, folded into the function.) -/
abbrev ImageLookup := String → Option String → Option ImageResult

/-! ### The parsing pipeline of `parseSingle`

Each titled section of `parseSingle` (title split, anchor split, path
rewrite, custom resolver dispatch, image handling, document lookup, cache
write) becomes one definition, composed in source order by `parseSingle`
itself. -/

/-- Hardcoded extension list of `isImageFile` (the method ignores the
configured `opts.imageExtensions`). -/
def imageExtensionsHardcoded : List String :=
  [".jpg", ".jpeg", ".png", ".gif", ".svg", ".webp"]

/-- Method `isImageFile(filename)`: case-insensitive suffix test against the
hardcoded extension list. -/
def isImageFile (filename : String) : Bool :=
  imageExtensionsHardcoded.any (fun ext => jsEndsWith (jsToLower filename) ext)

/-- Helper for `stripMdSuffix`: does this list spell `md` or `markdown`
up to case (the alternation of the regex, under its `i` flag)? -/
def mdCore (l : List Char) : Bool :=
  l.map Char.toLower == "md".data || l.map Char.toLower == "markdown".data

/-- Helper for `stripMdSuffix`: the part of the pattern after its leading
`.` wildcard, namely `(md|markdown)\s?$`, matched against the whole
remainder of the string. -/
def mdTailMatch (l : List Char) : Bool :=
  mdCore l ||
    (match l.getLast? with
     | some w => isJsWs w && mdCore l.dropLast
     | none => false)

/-- Helper for `stripMdSuffix`: does the regex `.(md|markdown)\s?$` match
starting exactly here (consuming the rest of the string)?  The leading `.`
of the pattern is an unescaped wildcard and eats one arbitrary character. -/
def mdMatchAt : List Char → Bool
  | [] => false
  | _c :: rest => mdTailMatch rest

/-- Model of `name.replace(/.(md|markdown)\s?$/i, "")`: delete the leftmost
(and, being anchored at `$`, only) match of the pattern. -/
def stripMdSuffix (s : String) : String :=
  match (List.range s.data.length).find? (fun i => mdMatchAt (s.data.drop i)) with
  | some i => ⟨s.data.take i⟩
  | none => s

/-- Line `const isEmbed = link.startsWith('!')`. -/
def isEmbedOf (link : String) : Bool := jsStartsWith link "!"

/-- The text between the brackets: `link.slice(isEmbed ? 3 : 2, -2)` with
JavaScript clamping semantics. -/
def innerOf (link : String) : String :=
  let k := if isEmbedOf link then 3 else 2
  ⟨(link.data.drop k).take (link.data.length - 2 - k)⟩

/-- Line `link.slice(...).split("|").map(part => part.trim())`. -/
def innerParts (link : String) : List String :=
  (splitOnChar '|' (innerOf link).data).map (fun l => jsTrim ⟨l⟩)

/-- Initial `meta.title`: `parts.length === 2 ? parts[1] : null`. -/
def titleOf (link : String) : Option String :=
  match innerParts link with
  | [_, t] => some t
  | _ => none

/-- Initial `meta.name`: first part with the markdown extension suffix
stripped. -/
def rawNameOf (link : String) : String :=
  stripMdSuffix ((innerParts link).headD "")

/-- Anchor-split section: operates on the (still extension-carrying)
`parts[0]` and the current `meta.name`; returns the new `(name, anchor)`.
Splits `parts[0]` on *every* `#`, trims the pieces, and either extracts
`nameParts[1]` as the anchor (when the trimmed text before the first `#`
does not end in the `/` escape) or removes the first `/#` escape from
`meta.name`. -/
def anchorStep (parts0 name0 : String) : String × Option String :=
  if name0.data.contains '#' then
    let nameParts := (splitOnChar '#' parts0.data).map (fun l => jsTrim ⟨l⟩)
    if (nameParts.headD "").data.getLast? != some '/' then
      (nameParts.headD "", nameParts[1]?)
    else
      (⟨listReplaceFirst name0.data ['/', '#'] ['#']⟩, none)
  else (name0, none)

/-- Anchor step applied to a raw token. -/
def nameAnchor (link : String) : String × Option String :=
  anchorStep ((innerParts link).headD "") (rawNameOf link)

/-- The working name after the anchor split; this is the name path
detection inspects. -/
def workingNameOf (link : String) : String := (nameAnchor link).1

/-- The anchor after the anchor split. -/
def anchorOf (link : String) : Option String := (nameAnchor link).2

/-- Line `meta.isPath = (meta.name.startsWith('/') ||
meta.name.startsWith('../') || meta.name.startsWith('./'))`. -/
def isPathOf (name : String) : Bool :=
  jsStartsWith name "/" || jsStartsWith name "../" || jsStartsWith name "./"

/-- Relative-path rewrite section: when the name is a path starting with
`.`, a referencing path is required (else the `Error` at line 196 of the
source); the name is rebuilt from the referencing document's directory,
dropping one trailing segment per `..` occurrence plus the filename, then
appending the non-`.`/`..` segments. -/
def relativeRewrite (name : String) (filePathStem : Option String) :
    Except ParseError String :=
  if isPathOf name && jsStartsWith name "." then
    match filePathStem with
    | none => .error .missingContext
    | some stem =>
      let cwd := splitOnChar '/' stem.data
      let relative := splitOnChar '/' name.data
      let stepsBack := (relative.filter (fun f => f == "..".data)).length
      .ok ⟨joinChar '/'
        (cwd.take (cwd.length - (stepsBack + 1)) ++
         relative.filter (fun f => f != "..".data && f != ".".data))⟩
  else .ok name

/-- The meta record as it stands when the custom-resolver section begins:
everything `parseSingle` computes before line 214 of the source, including
the two throwing relative-lookup cases. -/
def metaBeforeResolver (link : String) (filePathStem : Option String) :
    Except ParseError WikilinkMeta :=
  match relativeRewrite (workingNameOf link) filePathStem with
  | .error e => .error e
  | .ok name2 =>
    .ok { title := titleOf link
          name := name2
          anchor := anchorOf link
          link := link
          isEmbed := isEmbedOf link
          isPath := isPathOf (workingNameOf link)
          exists' := false
          resolvingFnName := if isEmbedOf link then "default-embed" else "default"
          isImage := false
          href := none
          path := none
          page := none }

/-- Custom-resolver section (source lines 214 to 227): on an unescaped `:`
whose prefix is registered, dispatch to it; when it is not registered (or
no resolver map is configured), fall back to a whole-name directory lookup
and throw when that fails too; on an escaped `:`, remove the first `/:`
escape. -/
def resolverStep (opts : Opts) (pd : PageDirectory) (link : String)
    (filePathStem : Option String) (m : WikilinkMeta) :
    Except ParseError WikilinkMeta :=
  if m.name.data.contains ':' then
    let parts := (splitOnChar ':' m.name.data).map (fun l => jsTrim ⟨l⟩)
    if (parts.headD "").data.getLast? != some '/' then
      if opts.resolvingFns.elim true (fun fns => !(fns.contains (parts.headD ""))) then
        if (pd m).found then .ok m
        else .error (.unresolvedResolver (parts.headD "") link filePathStem)
      else .ok { m with resolvingFnName := parts.headD "", name := parts.getD 1 "" }
    else .ok { m with name := ⟨listReplaceFirst m.name.data ['/', ':'] [':']⟩ }
  else .ok m

/-- Model of Node's `path.basename(p)` restricted to forward-slash paths:
the last `/`-separated segment. -/
def lastSegment (p : String) : String :=
  ⟨((splitOnChar '/' p.data).getLastD [])⟩

/-- Model of Node's `path.extname(p)`: the suffix of the basename from its
last `.`, empty when there is no `.` past the first character. -/
def pathExtname (p : String) : String :=
  let base := (lastSegment p).data
  let afterRev := base.reverse.takeWhile (fun c => c != '.')
  if afterRev.length == base.length then ""
  else if base.length - afterRev.length - 1 == 0 then ""
  else ⟨'.' :: afterRev.reverse⟩

/-- Model of Node's `path.basename(p, ext)`: the basename with a trailing
`ext` removed when it is a proper suffix. -/
def pathBasename (p ext : String) : String :=
  let base := lastSegment p
  if ext != "" && ext != base && jsEndsWith base ext then
    ⟨base.data.take (base.data.length - ext.data.length)⟩
  else base

/-- Set#add on the dead-links set: insert if absent, keeping insertion
order. -/
def setAdd (l : List String) (x : String) : List String :=
  if l.contains x then l else l ++ [x]

/-- Map#get on the link cache (assoc-list model of a JS `Map`; keys are
unique by construction of `cacheSet`). -/
def cacheGet (c : List (String × WikilinkMeta)) (k : String) : Option WikilinkMeta :=
  match c with
  | [] => none
  | (k2, v) :: rest => if k2 == k then some v else cacheGet rest k

/-- Map#set on the link cache: overwrite in place when the key is present,
append otherwise. -/
def cacheSet (c : List (String × WikilinkMeta)) (k : String) (v : WikilinkMeta) :
    List (String × WikilinkMeta) :=
  match c with
  | [] => [(k, v)]
  | (k2, v2) :: rest => if k2 == k then (k, v) :: rest else (k2, v2) :: cacheSet rest k v

/-- Image-embed section (source lines 229 to 252): only for embeds whose
name passes `isImageFile`; marks the record as an image, dispatches to the
`image-embed` strategy, and consults the filesystem search.  A hit fills
`exists'`/`href`/`path` and defaults a falsy title to the base filename;
a miss records a dead link, points `href` at the stub URL and switches to
the `404-embed` strategy. -/
def imageStep (opts : Opts) (il : ImageLookup) (link : String)
    (filePathStem : Option String) (isEmbed : Bool) (m : WikilinkMeta)
    (st : ParserState) : WikilinkMeta × ParserState :=
  if isEmbed && isImageFile m.name then
    let m1 := { m with isImage := true, resolvingFnName := "image-embed" }
    match il m1.name filePathStem with
    | some r =>
      if r.exists' then
        ({ m1 with
            exists' := true
            href := some r.href
            path := some r.fullPath
            title := if optTruthy m1.title then m1.title
                     else some (pathBasename m1.name (pathExtname m1.name)) }, st)
      else
        ({ m1 with href := some opts.stubUrl, resolvingFnName := "404-embed" },
         { st with deadLinks := setAdd st.deadLinks link })
    | none =>
        ({ m1 with href := some opts.stubUrl, resolvingFnName := "404-embed" },
         { st with deadLinks := setAdd st.deadLinks link })
  else (m, st)

/-- Document-lookup section (source lines 256 to 276), skipped for images:
a found page fills `title` (alias convention first, else the page title
when the record has none), `href`, `path`, `exists'` and the back
reference; on no page, only records still owned by the two default
strategies fall back to a dead link with the stub URL, embeds switching to
`404-embed`. -/
def lookupStep (opts : Opts) (pd : PageDirectory) (link : String)
    (isEmbed : Bool) (m : WikilinkMeta) (st : ParserState) :
    WikilinkMeta × ParserState :=
  if m.isImage then (m, st)
  else
    let r := pd m
    match r.page with
    | some page =>
      let newTitle :=
        if r.foundByAlias then some m.name
        else if m.title.isNone && optTruthy page.data.title then page.data.title
        else m.title
      ({ m with
          title := newTitle
          href := some page.url
          path := some page.inputPath
          exists' := true
          page := some page }, st)
    | none =>
      if ["default", "default-embed"].contains m.resolvingFnName then
        ({ m with
            href := some opts.stubUrl
            resolvingFnName := if isEmbed then "404-embed" else m.resolvingFnName },
         { st with deadLinks := setAdd st.deadLinks link })
      else (m, st)

/-- Method `parseSingle(link, pageDirectory, filePathStem)`: cache
short-circuit, then the staged interpretation, then the cache write.  The
pair returned carries the thrown-or-returned result together with the
(possibly mutated) shared state. -/
def parseSingle (opts : Opts) (il : ImageLookup) (pd : PageDirectory)
    (st : ParserState) (link : String) (filePathStem : Option String) :
    Except ParseError WikilinkMeta × ParserState :=
  match cacheGet st.linkCache link with
  | some meta => (.ok meta, st)
  | none =>
    match metaBeforeResolver link filePathStem with
    | .error e => (.error e, st)
    | .ok meta3 =>
      match resolverStep opts pd link filePathStem meta3 with
      | .error e => (.error e, st)
      | .ok meta4 =>
        let ms5 := imageStep opts il link filePathStem (isEmbedOf link) meta4 st
        let ms6 := lookupStep opts pd link (isEmbedOf link) ms5.1 ms5.2
        (.ok ms6.1, { ms6.2 with linkCache := cacheSet ms6.2.linkCache link ms6.1 })

/-! ### The link extractor

Model of `document.match(wikiLinkRegExp)` with
`wikiLinkRegExp = /(?<!!)(!?)\[\[([^|\n]+?)(\|([^\n]+?))?]]/g`:
a left-to-right, non-overlapping scan.  At a candidate position the engine
checks the negative lookbehind, greedily takes an optional `!`, requires
`[[`, lazily grows the pipe-free, newline-free name group, and for each
candidate end first tries the greedy optional `|…` group (whose title part
is again lazy and newline-free) and then the closing `]]`. -/

/-- Scan for the title group after its `|`: lazily consume one or more
non-newline characters until `]]` closes the match; the count returned
includes the two closing brackets. -/
def yScan : List Char → Option Nat
  | [] => none
  | c :: rest =>
    if c == '\n' then none
    else if rest.take 2 == [']', ']'] then some 3
    else (yScan rest).map (· + 1)

/-- Scan for the name group right after `[[`: lazily consume one or more
characters that are neither `|` nor newline; after each one first try the
pipe-and-title alternative, then the immediate `]]` close, then extend.
Returns the count of characters consumed through the closing brackets. -/
def xScan : List Char → Option Nat
  | [] => none
  | c :: rest =>
    if c == '|' || c == '\n' then none
    else
      match rest, yScan rest.tail with
      | '|' :: _, some k => some (k + 2)
      | _, _ =>
        if rest.take 2 == [']', ']'] then some 3
        else (xScan rest).map (· + 1)

/-- Attempt a match at position `i` of the document: the lookbehind rejects
a preceding `!`; a leading `!` is consumed only when `[[` follows it
(backtracking to the bare `[[` case cannot succeed at the same position).
Returns the length of the whole match. -/
def matchAt (cs : List Char) (i : Nat) : Option Nat :=
  if i = 0 || cs[i-1]? != some '!' then
    match cs.drop i with
    | '!' :: '[' :: '[' :: rest => (xScan rest).map (· + 3)
    | '[' :: '[' :: rest => (xScan rest).map (· + 2)
    | _ => none
  else none

/-- Global-flag scan: try each position left to right, emit each match and
resume right after it (every match is at least five characters long, so the
scan advances).  The fuel argument starts at `cs.length + 1`, enough for
every position to be visited once. -/
def scanAux (cs : List Char) : Nat → Nat → List String
  | 0, _ => []
  | fuel + 1, i =>
    if i < cs.length then
      match matchAt cs i with
      | some n => (⟨(cs.drop i).take n⟩ : String) :: scanAux cs fuel (i + n)
      | none => scanAux cs fuel (i + 1)
    else []

/-- All raw wikilink tokens of a document, in order, duplicates preserved:
`document.match(this.wikiLinkRegExp) || []`. -/
def findTokens (document : String) : List String :=
  scanAux document.data (document.data.length + 1) 0

/-! ### Definitions following the specification's words

These two definitions are deliberately written from the *spec*, not the
source, to compare against the embedded code. -/

/-- Modelled from the spec (token grammar), bracket body: the character
list is `[[X(|Y)?]]` where `X` is nonempty with no `|` and no newline and
`Y`, when present, is nonempty with no newline. -/
def specInnerForm (cs : List Char) : Bool :=
  cs.take 2 == ['[', '['] &&
  cs.length ≥ 5 &&
  (cs.drop (cs.length - 2)) == [']', ']'] &&
  (let inner := (cs.drop 2).take (cs.length - 4)
   let x := inner.takeWhile (fun c => c != '|')
   let rest := inner.drop x.length
   !x.isEmpty && !x.contains '\n' &&
     (match rest with
      | [] => true
      | _ :: ys => !ys.isEmpty && !ys.contains '\n'))

/-- Modelled from the spec (token grammar): the string is
`(!)?[[X(|Y)?]]` with the constraints of `specInnerForm`. -/
def specTokenForm (tok : String) : Bool :=
  specInnerForm (if jsStartsWith tok "!" then tok.data.tail else tok.data)

/-- Modelled from the spec (title split): split the inner text on the
*first* `|` and trim both sides, the second part becoming the title when
the `|` is present. -/
def specFirstPipeTitle (link : String) : Option String :=
  let inner := (innerOf link).data
  if inner.contains '|' then
    some (jsTrim ⟨(inner.dropWhile (fun c => c != '|')).tail⟩)
  else none

/-- Decidable equality for `Except` results, so concrete runs of
`parseSingle` can be checked by `decide`. -/
instance {e a : Type} [DecidableEq e] [DecidableEq a] : DecidableEq (Except e a) := fun x y =>
  match x, y with
  | .ok v, .ok w =>
    if h : v = w then isTrue (by rw [h]) else isFalse (by intro hh; cases hh; exact h rfl)
  | .error v, .error w =>
    if h : v = w then isTrue (by rw [h]) else isFalse (by intro hh; cases hh; exact h rfl)
  | .ok _, .error _ => isFalse (by intro hh; cases hh)
  | .error _, .ok _ => isFalse (by intro hh; cases hh)

/-! ### Concrete fixtures used by witnesses and counterexamples -/

/-- A page directory with no documents: every lookup misses. -/
def pdEmpty : PageDirectory := fun _ => { page := none, found := false, foundByAlias := false }

/-- A filesystem with no image files. -/
def ilNone : ImageLookup := fun _ _ => none

/-- Options mirroring the test fixtures: a resolver map with only the two
default strategies registered, and the stub URL `/stubs/`. -/
def optsTest : Opts :=
  { resolvingFns := some ["default", "default-embed"], stubUrl := "/stubs/" }

/-- Fresh shared state: both side tables empty. -/
def st0 : ParserState := { deadLinks := [], linkCache := [] }

/-- Projection used to read `isImage` off a `parseSingle` result. -/
def resultIsImage (r : Except ParseError WikilinkMeta × ParserState) : Option Bool :=
  match r.1 with
  | .ok m => some m.isImage
  | .error _ => none

/-- Projection used to read `resolvingFnName` off a `parseSingle` result. -/
def resultResolvingFnName (r : Except ParseError WikilinkMeta × ParserState) : Option String :=
  match r.1 with
  | .ok m => some m.resolvingFnName
  | .error _ => none

/-- Projection used to read `name` off a `parseSingle` result. -/
def resultName (r : Except ParseError WikilinkMeta × ParserState) : Option String :=
  match r.1 with
  | .ok m => some m.name
  | .error _ => none

/-- A concrete interpreted record, used as a cache/lookup fixture. -/
def metaFixture : WikilinkMeta :=
  { title := some "T", name := "k", anchor := none, link := "[[k]]", isEmbed := false,
    isPath := false, exists' := true, resolvingFnName := "default", isImage := false,
    href := some "/k/", path := none, page := none }

/-- Shared state whose cache already holds a record for `[[k]]`. -/
def stWithCache : ParserState := { deadLinks := [], linkCache := [("[[k]]", metaFixture)] }

/-- The record `parseSingle` has built for `[[fail:1234]]` when the
custom-resolver section begins (used to witness the resolver error). -/
def failMeta : WikilinkMeta :=
  { title := none, name := "fail:1234", anchor := none, link := "[[fail:1234]]",
    isEmbed := false, isPath := false, exists' := false,
    resolvingFnName := "default", isImage := false, href := none, path := none, page := none }


/-! ### Helper lemmas about the string primitives -/

theorem splitOnChar_cons (sep c : Char) (l : List Char) :
    splitOnChar sep (c :: l) =
      match splitOnChar sep l with
      | [] => [[]]
      | h :: t => if c == sep then [] :: h :: t else (c :: h) :: t := rfl

theorem splitOnChar_ne_nil (sep : Char) (l : List Char) : splitOnChar sep l ≠ [] := by
  cases l with
  | nil => simp [splitOnChar]
  | cons c rest =>
    rw [splitOnChar_cons]
    cases splitOnChar sep rest with
    | nil => simp
    | cons h t => by_cases hc : (c == sep) = true <;> simp [hc]

theorem splitOnChar_headD (sep : Char) (l : List Char) :
    (splitOnChar sep l).headD [] = l.takeWhile (fun c => c != sep) := by
  induction l with
  | nil => simp [splitOnChar]
  | cons c rest ih =>
    rw [splitOnChar_cons]
    cases hs : splitOnChar sep rest with
    | nil => exact absurd hs (splitOnChar_ne_nil sep rest)
    | cons h1 t =>
      rw [hs] at ih
      by_cases hc : (c == sep) = true
      · have hbne : (c != sep) = false := by simp [bne, hc]
        simp [hc, List.takeWhile_cons, hbne]
      · have hcf : (c == sep) = false := by
          simp only [Bool.not_eq_true] at hc; exact hc
        have hbne : (c != sep) = true := by simp [bne, hcf]
        simp only [hcf, Bool.false_eq_true, if_false, List.headD_cons]
        rw [List.takeWhile_cons, hbne]
        simp only [if_true]
        simp only [List.headD_cons] at ih
        rw [ih]

theorem splitOnChar_second (sep : Char) (l : List Char) (h : sep ∈ l) :
    (splitOnChar sep l)[1]? =
      some ((l.dropWhile (fun c => c != sep)).tail.takeWhile (fun c => c != sep)) := by
  induction l with
  | nil => cases h
  | cons c rest ih =>
    rw [splitOnChar_cons]
    cases hs : splitOnChar sep rest with
    | nil => exact absurd hs (splitOnChar_ne_nil sep rest)
    | cons h1 t =>
      by_cases hc : (c == sep) = true
      · have hbne : (c != sep) = false := by simp [bne, hc]
        have hdw : (c :: rest).dropWhile (fun c => c != sep) = c :: rest := by
          rw [List.dropWhile_cons, hbne]; simp
        have hh1 : h1 = rest.takeWhile (fun c => c != sep) := by
          have hh := splitOnChar_headD sep rest
          rw [hs] at hh
          simpa using hh
        simp [hc, hdw, hh1]
      · have hcf : (c == sep) = false := by
          simp only [Bool.not_eq_true] at hc; exact hc
        have hmem : sep ∈ rest := by
          rcases List.mem_cons.mp h with heq | hm
        -- heq : sep = c contradicts hcf
          · exact absurd (by simp [heq]) (by simp [hcf] : ¬ (c == sep) = true)
          · exact hm
        have hbne : (c != sep) = true := by simp [bne, hcf]
        have hdw : (c :: rest).dropWhile (fun c => c != sep) =
            rest.dropWhile (fun c => c != sep) := by
          rw [List.dropWhile_cons, hbne]; simp
        rw [hs] at ih
        simp only [hcf, Bool.false_eq_true, if_false]
        rw [hdw]
        have hih := ih hmem
        simpa using hih

theorem splitOnChar_length (sep : Char) (l : List Char) :
    (splitOnChar sep l).length = l.countP (fun c => c == sep) + 1 := by
  induction l with
  | nil => simp [splitOnChar]
  | cons c rest ih =>
    rw [splitOnChar_cons]
    cases hs : splitOnChar sep rest with
    | nil => exact absurd hs (splitOnChar_ne_nil sep rest)
    | cons h1 t =>
      rw [hs] at ih
      simp only [List.length_cons] at ih
      by_cases hc : (c == sep) = true
      all_goals simp [hc, List.countP_cons]
      all_goals omega

theorem splitOnChar_single (sep : Char) (l : List Char) (h : ∀ c ∈ l, c ≠ sep) :
    splitOnChar sep l = [l] := by
  induction l with
  | nil => simp [splitOnChar]
  | cons c rest ih =>
    have hcf : (c == sep) = false := by
      simpa using h c (List.mem_cons_self c rest)
    have ihh := ih (fun x hx => h x (List.mem_cons_of_mem c hx))
    rw [splitOnChar_cons, ihh]
    simp [hcf]

theorem splitOnChar_append (sep : Char) (l1 l2 : List Char) (h : ∀ c ∈ l1, c ≠ sep) :
    splitOnChar sep (l1 ++ sep :: l2) = l1 :: splitOnChar sep l2 := by
  induction l1 with
  | nil =>
    cases hs : splitOnChar sep l2 with
    | nil => exact absurd hs (splitOnChar_ne_nil sep l2)
    | cons h1 t =>
      rw [List.nil_append, splitOnChar_cons, hs]
      simp
  | cons c rest ih =>
    have hcf : (c == sep) = false := by
      simpa using h c (List.mem_cons_self c rest)
    have ihh := ih (fun x hx => h x (List.mem_cons_of_mem c hx))
    rw [List.cons_append, splitOnChar_cons, ihh]
    simp [hcf]

theorem splitOnChar_joinChar (sep : Char) (segs : List (List Char)) (hne : segs ≠ [])
    (h : ∀ s ∈ segs, ∀ c ∈ s, c ≠ sep) :
    splitOnChar sep (joinChar sep segs) = segs := by
  induction segs with
  | nil => exact absurd rfl hne
  | cons s rest ih =>
    cases rest with
    | nil =>
      rw [joinChar]
      exact splitOnChar_single sep s (h s (List.mem_cons_self s []))
    | cons s2 r2 =>
      rw [joinChar]
      rw [splitOnChar_append sep s (joinChar sep (s2 :: r2))
            (h s (List.mem_cons_self s (s2 :: r2)))]
      rw [ih (by simp) (fun x hx => h x (List.mem_cons_of_mem s hx))]

theorem dropWhile_dropWhile (p : Char → Bool) (l : List Char) :
    (l.dropWhile p).dropWhile p = l.dropWhile p := by
  induction l with
  | nil => rfl
  | cons c rest ih =>
    by_cases h : p c = true
    · rw [List.dropWhile_cons_of_pos h]; exact ih
    · rw [List.dropWhile_cons_of_neg (by simpa using h),
          List.dropWhile_cons_of_neg (by simpa using h)]

theorem getLast?_dropWhile (p : Char → Bool) (l : List Char) (h : l.dropWhile p ≠ []) :
    (l.dropWhile p).getLast? = l.getLast? := by
  induction l with
  | nil => simp at h
  | cons c rest ih =>
    by_cases hp : p c = true
    · rw [List.dropWhile_cons_of_pos hp] at h ⊢
      have hrne : rest ≠ [] := by
        intro hr; rw [hr] at h; simp at h
      rw [ih h]
      cases rest with
      | nil => exact absurd rfl hrne
      | cons b lb => rw [List.getLast?_cons_cons]
    · rw [List.dropWhile_cons_of_neg (by simpa using hp)]

theorem dropWhile_of_head_neg (p : Char → Bool) (l : List Char)
    (h : ∀ x, l.head? = some x → p x = false) : l.dropWhile p = l := by
  cases l with
  | nil => rfl
  | cons c rest =>
    have hc := h c rfl
    rw [List.dropWhile_cons_of_neg (by simp [hc])]

theorem head?_dropWhile_false (p : Char → Bool) (l : List Char) (x : Char)
    (h : (l.dropWhile p).head? = some x) : p x = false := by
  induction l with
  | nil => simp at h
  | cons c rest ih =>
    by_cases hp : p c = true
    · rw [List.dropWhile_cons_of_pos hp] at h; exact ih h
    · rw [List.dropWhile_cons_of_neg (by simpa using hp)] at h
      simp only [List.head?_cons, Option.some.injEq] at h
      rw [← h]
      simpa using hp

theorem trimTwice (l : List Char) :
    ((((((l.dropWhile isJsWs).reverse.dropWhile isJsWs).reverse).dropWhile
        isJsWs).reverse.dropWhile isJsWs).reverse) =
      ((l.dropWhile isJsWs).reverse.dropWhile isJsWs).reverse := by
  by_cases hB : (l.dropWhile isJsWs).reverse.dropWhile isJsWs = []
  · rw [hB]; simp
  · have h1 : (((l.dropWhile isJsWs).reverse.dropWhile isJsWs).reverse).dropWhile isJsWs =
        ((l.dropWhile isJsWs).reverse.dropWhile isJsWs).reverse := by
      apply dropWhile_of_head_neg
      intro x hx
      rw [List.head?_reverse] at hx
      have h2 := getLast?_dropWhile isJsWs (l.dropWhile isJsWs).reverse hB
      rw [List.getLast?_reverse] at h2
      rw [h2] at hx
      exact head?_dropWhile_false isJsWs l x hx
    rw [h1, List.reverse_reverse, dropWhile_dropWhile]

theorem jsTrim_idem (s : String) : jsTrim (jsTrim s) = jsTrim s := by
  unfold jsTrim
  exact congrArg String.mk (trimTwice s.data)

theorem contains_iff_mem {α : Type} [BEq α] [LawfulBEq α] {a : α} {l : List α} :
    l.contains a = true ↔ a ∈ l := by
  simp [List.contains]

theorem cacheGet_cacheSet_same (c : List (String × WikilinkMeta)) (k : String)
    (v : WikilinkMeta) : cacheGet (cacheSet c k v) k = some v := by
  induction c with
  | nil => simp [cacheSet, cacheGet]
  | cons p rest ih =>
    obtain ⟨k2, v2⟩ := p
    by_cases h : (k2 == k) = true
    · simp [cacheSet, cacheGet, h]
    · simp [cacheSet, cacheGet, h, ih]

theorem cacheGet_cacheSet_other (c : List (String × WikilinkMeta)) (k k' : String)
    (v : WikilinkMeta) (hne : k' ≠ k) :
    cacheGet (cacheSet c k v) k' = cacheGet c k' := by
  have hkk : (k == k') = false := by
    simp only [beq_eq_false_iff_ne]; exact fun hh => hne hh.symm
  induction c with
  | nil => simp [cacheSet, cacheGet, hkk]
  | cons p rest ih =>
    obtain ⟨k2, v2⟩ := p
    by_cases h : (k2 == k) = true
    · have hk2 : k2 = k := by simpa using h
      have h3 : (k2 == k') = false := by rw [hk2]; exact hkk
      simp [cacheSet, cacheGet, h, hk2, hkk, h3]
    · simp [cacheSet, cacheGet, h, ih]

theorem mem_setAdd_self (l : List String) (x : String) : x ∈ setAdd l x := by
  unfold setAdd
  by_cases h : l.contains x = true
  · rw [if_pos h]; exact contains_iff_mem.mp h
  · rw [if_neg h]; exact List.mem_append_right l (List.mem_singleton_self x)

theorem stripMdSuffix_prefix (s : String) : (stripMdSuffix s).data <+: s.data := by
  unfold stripMdSuffix
  cases h : (List.range s.data.length).find? (fun i => mdMatchAt (s.data.drop i)) with
  | none => exact List.prefix_refl _
  | some i => exact List.take_prefix i s.data

theorem jsStartsWith_dotSlash_dot (s : String) (h : jsStartsWith s "./" = true) :
    jsStartsWith s "." = true := by
  unfold jsStartsWith at *
  rw [List.isPrefixOf_iff_prefix] at *
  exact List.IsPrefix.trans ⟨['/'], rfl⟩ h

theorem jsStartsWith_dotDotSlash_dot (s : String) (h : jsStartsWith s "../" = true) :
    jsStartsWith s "." = true := by
  unfold jsStartsWith at *
  rw [List.isPrefixOf_iff_prefix] at *
  exact List.IsPrefix.trans ⟨['.', '/'], rfl⟩ h

theorem jsStartsWith_slash_not_dot (s : String) (h : jsStartsWith s "/" = true) :
    jsStartsWith s "." = false := by
  unfold jsStartsWith at *
  rw [List.isPrefixOf_iff_prefix] at h
  rcases h with ⟨t, ht⟩
  have hdot : (('.' == '/') : Bool) = false := by decide
  have hs : s.data = '/' :: t := by rw [← ht]; rfl
  rw [hs]
  show List.isPrefixOf ['.'] ('/' :: t) = false
  simp [List.isPrefixOf, hdot]

theorem resolverStep_error_shape (opts : Opts) (pd : PageDirectory) (link : String)
    (fps : Option String) (m : WikilinkMeta) (e : ParseError)
    (h : resolverStep opts pd link fps m = .error e) :
    ∃ a b c, e = .unresolvedResolver a b c := by
  unfold resolverStep at h
  dsimp only at h
  repeat split at h
  all_goals first
    | exact ⟨_, _, _, (Except.error.inj h).symm⟩
    | simp at h

/-! ### Claim theorems -/

/-- Claim C1.  The claim states that image detection applies to embeds and
plain links alike, so that `[[photo.JPG]]` gets `isImage = true`.  The code
guards the image section with `isEmbed && this.isImageFile(meta.name)`, so a
plain `[[photo.JPG]]` keeps `isImage = false` and the `default` strategy even
though `isImageFile "photo.JPG"` is `true`; only the embed `![[image.png]]`
is marked as an image.  This theorem records the code's behaviour at the
claim's own inputs (the repository's test suite expects `isImage = true` and
a `default-image` strategy for plain `[[photo.JPG]]`, agreeing with the
claim against the code). -/
theorem claim_C1_image_detection_embeds_only :
    resultIsImage (parseSingle optsTest ilNone pdEmpty st0 "[[photo.JPG]]" none) = some false ∧
    resultResolvingFnName (parseSingle optsTest ilNone pdEmpty st0 "[[photo.JPG]]" none) =
      some "default" ∧
    isImageFile "photo.JPG" = true ∧
    resultIsImage (parseSingle optsTest ilNone pdEmpty st0 "![[image.png]]" none) = some true ∧
    resultIsImage (parseSingle optsTest ilNone pdEmpty st0 "[[document.pdf]]" none) =
      some false := by
  decide

/-- Claim C10.  Whenever `parseSingle` throws (missing referencing path, or
unresolved custom resolver prefix), both shared side tables are exactly as
before the call: the dead-link set and the link cache of the returned state
equal those of the input state. -/
theorem claim_C10_throw_leaves_state_unchanged (opts : Opts) (il : ImageLookup)
    (pd : PageDirectory) (st : ParserState) (link : String) (fps : Option String)
    (e : ParseError) (h : (parseSingle opts il pd st link fps).1 = .error e) :
    (parseSingle opts il pd st link fps).2.deadLinks = st.deadLinks ∧
    (parseSingle opts il pd st link fps).2.linkCache = st.linkCache := by
  rcases hc : cacheGet st.linkCache link with _ | m
  · rcases hm : metaBeforeResolver link fps with e1 | m3
    · constructor <;> simp [parseSingle, hc, hm]
    · rcases hr : resolverStep opts pd link fps m3 with e2 | m4
      · constructor <;> simp [parseSingle, hc, hm, hr]
      · exfalso
        simp [parseSingle, hc, hm, hr] at h
  · exfalso
    simp [parseSingle, hc] at h

/-- Closed witness for C10 at the throwing input `[[./x]]` without a
referencing path. -/
theorem claim_C10_witness :
    (parseSingle optsTest ilNone pdEmpty st0 "[[./x]]" none).2.deadLinks = st0.deadLinks ∧
    (parseSingle optsTest ilNone pdEmpty st0 "[[./x]]" none).2.linkCache = st0.linkCache :=
  claim_C10_throw_leaves_state_unchanged optsTest ilNone pdEmpty st0 "[[./x]]" none
    .missingContext (by decide)

/-- Reduction of the document-lookup section when the directory returns no
page. -/
theorem lookupStep_miss (opts : Opts) (pd : PageDirectory) (link : String)
    (isEmbed : Bool) (m : WikilinkMeta) (st : ParserState)
    (hmiss : (pd m).page = none) :
    lookupStep opts pd link isEmbed m st =
      if m.isImage then (m, st)
      else if ["default", "default-embed"].contains m.resolvingFnName then
        ({ m with
            href := some opts.stubUrl
            resolvingFnName := if isEmbed then "404-embed" else m.resolvingFnName },
         { st with deadLinks := setAdd st.deadLinks link })
      else (m, st) := by
  by_cases h : m.isImage = true <;> simp [lookupStep, h, hmiss]

/-- Claim C2.  In the document-lookup section, when the directory returns no
page: a record still owned by one of the two default strategies is recorded
as a dead link, its `href` becomes the stub URL, and only embeds switch to
the `404-embed` strategy; a record already dispatched to any other strategy
(a custom resolver name, or the image path, which skips the lookup section
entirely) is returned untouched, with the state untouched. -/
theorem claim_C2_dead_link_fallback (opts : Opts) (pd : PageDirectory) (link : String)
    (isEmbed : Bool) (m : WikilinkMeta) (st : ParserState)
    (hmiss : (pd m).page = none) :
    (m.isImage = false →
      (m.resolvingFnName = "default" ∨ m.resolvingFnName = "default-embed") →
      link ∈ (lookupStep opts pd link isEmbed m st).2.deadLinks ∧
      (lookupStep opts pd link isEmbed m st).1.href = some opts.stubUrl ∧
      (lookupStep opts pd link isEmbed m st).1.resolvingFnName =
        (if isEmbed then "404-embed" else m.resolvingFnName)) ∧
    (m.isImage = false →
      m.resolvingFnName ≠ "default" → m.resolvingFnName ≠ "default-embed" →
      lookupStep opts pd link isEmbed m st = (m, st)) ∧
    (m.isImage = true → lookupStep opts pd link isEmbed m st = (m, st)) := by
  refine ⟨?_, ?_, ?_⟩
  · intro himg hdef
    have hcont : (["default", "default-embed"].contains m.resolvingFnName) = true := by
      rcases hdef with h | h <;> rw [h] <;> decide
    rw [lookupStep_miss opts pd link isEmbed m st hmiss,
        if_neg (by simp [himg]), if_pos hcont]
    exact ⟨mem_setAdd_self st.deadLinks link, rfl, rfl⟩
  · intro himg h1 h2
    have hcont : (["default", "default-embed"].contains m.resolvingFnName) = false := by
      cases hc : (["default", "default-embed"].contains m.resolvingFnName) with
      | false => rfl
      | true => exact absurd (contains_iff_mem.mp hc) (by simp [h1, h2])
    rw [lookupStep_miss opts pd link isEmbed m st hmiss,
        if_neg (by simp [himg]), if_neg (by simp only [hcont]; decide)]
  · intro himg
    rw [lookupStep_miss opts pd link isEmbed m st hmiss, if_pos himg]

/-- Closed witness for C2: a default-strategy record with no matching page
falls back to the dead-link stub, while the same record renamed to a custom
strategy passes through untouched. -/
theorem claim_C2_witness :
    ("[[k]]" ∈ (lookupStep optsTest pdEmpty "[[k]]" false metaFixture st0).2.deadLinks ∧
      (lookupStep optsTest pdEmpty "[[k]]" false metaFixture st0).1.href = some "/stubs/" ∧
      (lookupStep optsTest pdEmpty "[[k]]" false metaFixture st0).1.resolvingFnName =
        (if false then "404-embed" else metaFixture.resolvingFnName)) ∧
    lookupStep optsTest pdEmpty "[[k]]" false
        { metaFixture with resolvingFnName := "custom" } st0 =
      ({ metaFixture with resolvingFnName := "custom" }, st0) := by
  constructor
  · exact (claim_C2_dead_link_fallback optsTest pdEmpty "[[k]]" false metaFixture st0
      (by decide)).1 (by decide) (Or.inl (by decide))
  · exact (claim_C2_dead_link_fallback optsTest pdEmpty "[[k]]" false
      { metaFixture with resolvingFnName := "custom" } st0 (by decide)).2.1
      (by decide) (by decide) (by decide)

/-- Claim C7.  First half: a token whose working name is relative (starts
with `./` or `../`), interpreted with no referencing path and not already
cached, makes `parseSingle` fail with the missing-context error, the error
being returned immediately.  Second half: a token whose working name is
absolute (starts with `/`) never produces the missing-context error, with
or without a referencing path. -/
theorem claim_C7_missing_context :
    (∀ (opts : Opts) (il : ImageLookup) (pd : PageDirectory) (st : ParserState)
        (link : String),
      cacheGet st.linkCache link = none →
      (jsStartsWith (workingNameOf link) "./" = true ∨
        jsStartsWith (workingNameOf link) "../" = true) →
      parseSingle opts il pd st link none = (.error .missingContext, st)) ∧
    (∀ (opts : Opts) (il : ImageLookup) (pd : PageDirectory) (st : ParserState)
        (link : String) (fps : Option String),
      jsStartsWith (workingNameOf link) "/" = true →
      (parseSingle opts il pd st link fps).1 ≠ .error .missingContext) := by
  constructor
  · intro opts il pd st link hc hrel
    have hdot : jsStartsWith (workingNameOf link) "." = true := by
      rcases hrel with h | h
      · exact jsStartsWith_dotSlash_dot _ h
      · exact jsStartsWith_dotDotSlash_dot _ h
    have hpath : isPathOf (workingNameOf link) = true := by
      unfold isPathOf
      rcases hrel with h | h <;> simp [h]
    have hrw : relativeRewrite (workingNameOf link) none = .error .missingContext := by
      unfold relativeRewrite
      rw [if_pos (by simp [hpath, hdot])]
    have hm : metaBeforeResolver link none = .error .missingContext := by
      unfold metaBeforeResolver
      rw [hrw]
    simp [parseSingle, hc, hm]
  · intro opts il pd st link fps habs
    have hdot : jsStartsWith (workingNameOf link) "." = false :=
      jsStartsWith_slash_not_dot _ habs
    have hrw : relativeRewrite (workingNameOf link) fps = .ok (workingNameOf link) := by
      unfold relativeRewrite
      rw [if_neg (by simp [hdot])]
    rcases hc : cacheGet st.linkCache link with _ | m0
    · have hm : metaBeforeResolver link fps =
          .ok { title := titleOf link
                name := workingNameOf link
                anchor := anchorOf link
                link := link
                isEmbed := isEmbedOf link
                isPath := isPathOf (workingNameOf link)
                exists' := false
                resolvingFnName := if isEmbedOf link then "default-embed" else "default"
                isImage := false
                href := none
                path := none
                page := none } := by
        unfold metaBeforeResolver
        rw [hrw]
      rcases hr : resolverStep opts pd link fps
          { title := titleOf link
            name := workingNameOf link
            anchor := anchorOf link
            link := link
            isEmbed := isEmbedOf link
            isPath := isPathOf (workingNameOf link)
            exists' := false
            resolvingFnName := if isEmbedOf link then "default-embed" else "default"
            isImage := false
            href := none
            path := none
            page := none } with e2 | m4
      · obtain ⟨a, b, c, habc⟩ := resolverStep_error_shape opts pd link fps _ e2 hr
        simp [parseSingle, hc, hm, hr, habc]
      · simp [parseSingle, hc, hm, hr]
    · simp [parseSingle, hc]

/-- Closed witness for C7: a relative token without context throws, an
absolute one does not. -/
theorem claim_C7_witness :
    parseSingle optsTest ilNone pdEmpty st0 "[[../y]]" none = (.error .missingContext, st0) ∧
    (parseSingle optsTest ilNone pdEmpty st0 "[[/abs]]" none).1 ≠ .error .missingContext := by
  constructor
  · exact claim_C7_missing_context.1 optsTest ilNone pdEmpty st0 "[[../y]]"
      (by decide) (Or.inr (by decide))
  · exact claim_C7_missing_context.2 optsTest ilNone pdEmpty st0 "[[/abs]]" none (by decide)

/-- The first trimmed part of a split equals the trim of the text before the
first separator. -/
theorem trimmedParts_headD (sep : Char) (l : List Char) :
    (((splitOnChar sep l).map (fun x => jsTrim ⟨x⟩)).headD "") =
      jsTrim ⟨l.takeWhile (fun c => c != sep)⟩ := by
  cases hs : splitOnChar sep l with
  | nil => exact absurd hs (splitOnChar_ne_nil sep l)
  | cons h t =>
    have hh := splitOnChar_headD sep l
    rw [hs] at hh
    simp only [List.headD_cons] at hh
    simp [hh]

/-- Claim C8.  For an uncached token whose interpreted name carries an
unescaped `:` with a prefix not admitted by the configured resolver map,
`parseSingle` first tries the directory on the whole record (the hypothesis
on `pd m`), and when that lookup also fails it returns the unresolved
resolver error carrying the trimmed prefix, the raw token and the
referencing path, whose message interpolates exactly those three values. -/
theorem claim_C8_unresolved_resolver (opts : Opts) (il : ImageLookup) (pd : PageDirectory)
    (st : ParserState) (link : String) (fps : Option String) (m : WikilinkMeta)
    (hc : cacheGet st.linkCache link = none)
    (hm : metaBeforeResolver link fps = .ok m)
    (hcolon : m.name.data.contains ':' = true)
    (hesc : ((jsTrim ⟨m.name.data.takeWhile (fun c => c != ':')⟩).data.getLast? !=
        some '/') = true)
    (hreg : (opts.resolvingFns.elim true (fun fns =>
        !(fns.contains (jsTrim ⟨m.name.data.takeWhile (fun c => c != ':')⟩)))) = true)
    (hfound : (pd m).found = false) :
    parseSingle opts il pd st link fps =
      (.error (.unresolvedResolver (jsTrim ⟨m.name.data.takeWhile (fun c => c != ':')⟩)
        link fps), st) ∧
    errMessage (.unresolvedResolver (jsTrim ⟨m.name.data.takeWhile (fun c => c != ':')⟩)
        link fps) =
      "Unable to find resolving fn [" ++
        jsTrim ⟨m.name.data.takeWhile (fun c => c != ':')⟩ ++ "] for wikilink " ++ link ++
        " on page [" ++ fpsDisplay fps ++ "]" := by
  have hhead := trimmedParts_headD ':' m.name.data
  have hres : resolverStep opts pd link fps m =
      .error (.unresolvedResolver (jsTrim ⟨m.name.data.takeWhile (fun c => c != ':')⟩)
        link fps) := by
    unfold resolverStep
    rw [if_pos hcolon]
    dsimp only
    rw [hhead, if_pos hesc, if_pos hreg, if_neg (by simp [hfound])]
  constructor
  · simp [parseSingle, hc, hm, hres]
  · rfl

/-- Closed witness for C8 at the test suite's own input `[[fail:1234]]`. -/
theorem claim_C8_witness :
    parseSingle optsTest ilNone pdEmpty st0 "[[fail:1234]]" (some "/directory/filename") =
      (.error (.unresolvedResolver
          (jsTrim ⟨failMeta.name.data.takeWhile (fun c => c != ':')⟩)
          "[[fail:1234]]" (some "/directory/filename")), st0) ∧
    errMessage (.unresolvedResolver
        (jsTrim ⟨failMeta.name.data.takeWhile (fun c => c != ':')⟩)
        "[[fail:1234]]" (some "/directory/filename")) =
      "Unable to find resolving fn [" ++
        jsTrim ⟨failMeta.name.data.takeWhile (fun c => c != ':')⟩ ++ "] for wikilink " ++
        "[[fail:1234]]" ++ " on page [" ++ fpsDisplay (some "/directory/filename") ++ "]" :=
  claim_C8_unresolved_resolver optsTest ilNone pdEmpty st0 "[[fail:1234]]"
    (some "/directory/filename") failMeta (by decide) (by decide) (by decide) (by decide)
    (by decide) (by decide)

/-- The image section never touches the link cache. -/
theorem imageStep_linkCache (opts : Opts) (il : ImageLookup) (link : String)
    (fps : Option String) (isEmbed : Bool) (m : WikilinkMeta) (st : ParserState) :
    (imageStep opts il link fps isEmbed m st).2.linkCache = st.linkCache := by
  unfold imageStep
  split
  · dsimp only
    split
    · split <;> rfl
    · rfl
  · rfl

/-- The document-lookup section never touches the link cache. -/
theorem lookupStep_linkCache (opts : Opts) (pd : PageDirectory) (link : String)
    (isEmbed : Bool) (m : WikilinkMeta) (st : ParserState) :
    (lookupStep opts pd link isEmbed m st).2.linkCache = st.linkCache := by
  unfold lookupStep
  split
  · rfl
  · dsimp only
    split
    · rfl
    · split <;> rfl

/-- A successful `parseSingle` leaves its record in the cache under the raw
token. -/
theorem parseSingle_success_cached (opts : Opts) (il : ImageLookup) (pd : PageDirectory)
    (st : ParserState) (link : String) (fps : Option String) (m : WikilinkMeta)
    (st2 : ParserState) (h : parseSingle opts il pd st link fps = (.ok m, st2)) :
    cacheGet st2.linkCache link = some m := by
  unfold parseSingle at h
  rcases hc : cacheGet st.linkCache link with _ | m0
  · rw [hc] at h
    dsimp only at h
    rcases hm : metaBeforeResolver link fps with e | m3
    · rw [hm] at h
      dsimp only at h
      simp at h
    · rw [hm] at h
      dsimp only at h
      rcases hr : resolverStep opts pd link fps m3 with e | m4
      · rw [hr] at h
        dsimp only at h
        simp at h
      · rw [hr] at h
        dsimp only at h
        have h1 := congrArg Prod.fst h
        have h2 := congrArg Prod.snd h
        dsimp only at h1 h2
        have hm6 := Except.ok.inj h1
        rw [← h2, ← hm6]
        exact cacheGet_cacheSet_same _ link _
  · rw [hc] at h
    dsimp only at h
    have h1 := congrArg Prod.fst h
    have h2 := congrArg Prod.snd h
    dsimp only at h1 h2
    have hm0 := Except.ok.inj h1
    rw [← h2, hc, hm0]

/-- Claim C3.  A cached token is returned as the stored record with the
state untouched; after any successful call the returned record is exactly
what the cache holds for that token, so a second call returns the identical
record and changes nothing; and no later call for any other token ever
alters an existing cache entry. -/
theorem claim_C3_cache_idempotence :
    (∀ (opts : Opts) (il : ImageLookup) (pd : PageDirectory) (st : ParserState)
        (link : String) (fps : Option String) (m : WikilinkMeta),
      cacheGet st.linkCache link = some m →
      parseSingle opts il pd st link fps = (.ok m, st)) ∧
    (∀ (opts : Opts) (il : ImageLookup) (pd : PageDirectory) (st : ParserState)
        (link : String) (fps : Option String) (m : WikilinkMeta) (st2 : ParserState),
      parseSingle opts il pd st link fps = (.ok m, st2) →
      cacheGet st2.linkCache link = some m ∧
      parseSingle opts il pd st2 link fps = (.ok m, st2)) ∧
    (∀ (opts : Opts) (il : ImageLookup) (pd : PageDirectory) (st : ParserState)
        (link : String) (fps2 : Option String) (m : WikilinkMeta) (link2 : String),
      cacheGet st.linkCache link = some m →
      cacheGet (parseSingle opts il pd st link2 fps2).2.linkCache link = some m) := by
  have part1 : ∀ (opts : Opts) (il : ImageLookup) (pd : PageDirectory) (st : ParserState)
      (link : String) (fps : Option String) (m : WikilinkMeta),
      cacheGet st.linkCache link = some m →
      parseSingle opts il pd st link fps = (.ok m, st) := by
    intro opts il pd st link fps m h
    simp [parseSingle, h]
  refine ⟨part1, ?_, ?_⟩
  · intro opts il pd st link fps m st2 h
    have hcache := parseSingle_success_cached opts il pd st link fps m st2 h
    exact ⟨hcache, part1 opts il pd st2 link fps m hcache⟩
  · intro opts il pd st link fps2 m link2 h
    by_cases heq : link2 = link
    · subst heq
      rw [part1 opts il pd st link2 fps2 m h]
      exact h
    · rcases hc : cacheGet st.linkCache link2 with _ | m0
      · rcases hm : metaBeforeResolver link2 fps2 with e | m3
        · unfold parseSingle
          rw [hc]
          dsimp only
          rw [hm]
          dsimp only
          exact h
        · rcases hr : resolverStep opts pd link2 fps2 m3 with e | m4
          · unfold parseSingle
            rw [hc]
            dsimp only
            rw [hm]
            dsimp only
            rw [hr]
            dsimp only
            exact h
          · unfold parseSingle
            rw [hc]
            dsimp only
            rw [hm]
            dsimp only
            rw [hr]
            dsimp only
            rw [cacheGet_cacheSet_other _ link2 link _ (fun hh => heq hh.symm)]
            rw [lookupStep_linkCache, imageStep_linkCache]
            exact h
      · unfold parseSingle
        rw [hc]
        dsimp only
        exact h

/-- Closed witness for C3: a call on an already-cached token returns the
stored record and the unchanged state. -/
theorem claim_C3_witness :
    parseSingle optsTest ilNone pdEmpty stWithCache "[[k]]" none =
      (.ok metaFixture, stWithCache) :=
  claim_C3_cache_idempotence.1 optsTest ilNone pdEmpty stWithCache "[[k]]" none metaFixture
    (by decide)

/-- Counterexample for claim C4: the code splits the inner text of
`[[a|b|c]]` on *every* `|`, getting three parts and hence no title, while
the claim's split on the *first* `|` would make the title `b|c`. -/
theorem claim_C4_counterexample :
    specFirstPipeTitle "[[a|b|c]]" = some "b|c" ∧
    titleOf "[[a|b|c]]" = none ∧
    (none : Option String) ≠ some "b|c" := by decide

/-- Claim C4 as amended.  The inner text is split on every `|` and every
part is trimmed; a title exists exactly when the split yields two parts
(exactly one `|`); the working name is the trim of the text before the
first `|`, markdown extension stripped; and the claim's own spacing
examples agree. -/
theorem claim_C4_amended_title_split (link : String) :
    ((titleOf link).isSome ↔ (innerOf link).data.countP (fun c => c == '|') = 1) ∧
    (∀ p ∈ innerParts link, jsTrim p = p) ∧
    rawNameOf link =
      stripMdSuffix (jsTrim ⟨(innerOf link).data.takeWhile (fun c => c != '|')⟩) ∧
    innerParts "[[ name | title ]]" = ["name", "title"] ∧
    innerParts "[[name|title]]" = ["name", "title"] ∧
    titleOf "[[a|b|c]]" = none := by
  refine ⟨?_, ?_, ?_, by decide, by decide, by decide⟩
  · have hlen : (innerParts link).length =
        (innerOf link).data.countP (fun c => c == '|') + 1 := by
      unfold innerParts
      rw [List.length_map, splitOnChar_length]
    unfold titleOf
    rcases hp : innerParts link with _ | ⟨a, rest⟩
    · rw [hp] at hlen
      simp only [List.length_nil] at hlen
      exact absurd hlen.symm (by omega)
    · rcases rest with _ | ⟨b, rest2⟩
      · rw [hp] at hlen
        simp only [List.length_cons, List.length_nil] at hlen
        simp only [Option.isSome_none]
        constructor
        · intro hh; cases hh
        · intro hh; omega
      · rcases rest2 with _ | ⟨c, rest3⟩
        · rw [hp] at hlen
          simp only [List.length_cons, List.length_nil] at hlen
          simp only [Option.isSome_some, true_iff]
          omega
        · rw [hp] at hlen
          simp only [List.length_cons] at hlen
          simp only [Option.isSome_none]
          constructor
          · intro hh; cases hh
          · intro hh; omega
  · intro p hp
    unfold innerParts at hp
    rcases List.mem_map.mp hp with ⟨l, _, rfl⟩
    exact jsTrim_idem ⟨l⟩
  · unfold rawNameOf innerParts
    rw [trimmedParts_headD]

/-- Closed witness for the amended C4 at `[[a|b]]`. -/
theorem claim_C4_witness : (titleOf "[[a|b]]").isSome ∧ jsTrim "a" = "a" := by
  have h := claim_C4_amended_title_split "[[a|b]]"
  exact ⟨h.1.mpr (by decide), h.2.1 "a" (by decide)⟩

/-- Counterexample for claim C5: in `[[a#b#c]]` the code splits on *every*
`#` and takes `nameParts[1]`, so the anchor is `b` (the text between the
first and second `#`), not the claim's `b#c` (everything after the first
`#`). -/
theorem claim_C5_counterexample :
    nameAnchor "[[a#b#c]]" = ("a", some "b") ∧
    (nameAnchor "[[a#b#c]]").2 ≠ some "b#c" := by decide

/-- Claim C5 as amended.  Without `#` nothing changes; with `#` and no `/`
escape ending the trimmed text before the first `#`, the name becomes that
trimmed text and the anchor the trimmed text between the first and second
`#` (everything after the first when there is no second); with the escape,
the first `/#` of the working name collapses to `#` and no anchor is
extracted; the spec's own two examples behave as stated. -/
theorem claim_C5_amended_anchor_split (link : String) :
    ((rawNameOf link).data.contains '#' = false →
      nameAnchor link = (rawNameOf link, none)) ∧
    ((rawNameOf link).data.contains '#' = true →
      ((jsTrim ⟨((innerParts link).headD "").data.takeWhile (fun c => c != '#')⟩).data.getLast? !=
          some '/') = true →
      nameAnchor link =
        (jsTrim ⟨((innerParts link).headD "").data.takeWhile (fun c => c != '#')⟩,
         some (jsTrim ⟨(((innerParts link).headD "").data.dropWhile
            (fun c => c != '#')).tail.takeWhile (fun c => c != '#')⟩))) ∧
    ((rawNameOf link).data.contains '#' = true →
      (jsTrim ⟨((innerParts link).headD "").data.takeWhile (fun c => c != '#')⟩).data.getLast? =
        some '/' →
      nameAnchor link = (⟨listReplaceFirst (rawNameOf link).data ['/', '#'] ['#']⟩, none)) ∧
    nameAnchor "[[page#section]]" = ("page", some "section") ∧
    nameAnchor "[[Page about C/#]]" = ("Page about C#", none) := by
  refine ⟨?_, ?_, ?_, by decide, by decide⟩
  · intro hc
    unfold nameAnchor anchorStep
    rw [if_neg (by simp only [hc]; decide)]
  · intro hc hesc
    have hmem : '#' ∈ ((innerParts link).headD "").data := by
      have hpre := stripMdSuffix_prefix ((innerParts link).headD "")
      have hmem0 : '#' ∈ (rawNameOf link).data := contains_iff_mem.mp hc
      exact hpre.subset hmem0
    unfold nameAnchor anchorStep
    rw [if_pos hc]
    dsimp only
    rw [trimmedParts_headD, if_pos hesc]
    have hsecond : ((splitOnChar '#' ((innerParts link).headD "").data).map
        (fun l => jsTrim ⟨l⟩))[1]? =
        some (jsTrim ⟨((((innerParts link).headD "").data.dropWhile
          (fun c => c != '#')).tail.takeWhile (fun c => c != '#'))⟩) := by
      rw [List.getElem?_map, splitOnChar_second '#' _ hmem]
      rfl
    rw [hsecond]
  · intro hc hesc
    unfold nameAnchor anchorStep
    rw [if_pos hc]
    dsimp only
    rw [trimmedParts_headD,
        if_neg (fun hh => by rw [hesc] at hh; exact absurd hh (by decide))]

/-- Closed witness for the amended C5 at `[[x#y]]`. -/
theorem claim_C5_witness :
    nameAnchor "[[x#y]]" =
      (jsTrim ⟨((innerParts "[[x#y]]").headD "").data.takeWhile (fun c => c != '#')⟩,
       some (jsTrim ⟨(((innerParts "[[x#y]]").headD "").data.dropWhile
          (fun c => c != '#')).tail.takeWhile (fun c => c != '#')⟩)) :=
  (claim_C5_amended_anchor_split "[[x#y]]").2.1 (by decide) (by decide)

/-- Unfolding equation for `joinChar` on a two-or-more element list. -/
theorem joinChar_cons_cons (sep : Char) (a b : List Char) (t : List (List Char)) :
    joinChar sep (a :: b :: t) = a ++ sep :: joinChar sep (b :: t) := rfl

/-- Claim C6.  General form, covering both relative spellings the claim
quantifies over.  First conjunct: a reference of `m ≥ 1` leading `..`
segments followed by ordinary segments, resolved against a referencing path
`dirs ++ [file]`, rewrites to the directory prefix shortened by `m` (one
segment per `..`, plus the filename) followed by the non-`.` segments of
the reference.  Second conjunct: a `./`-prefixed reference (zero steps
back) rewrites to the referencing document's full directory (only the
filename removed) followed by its non-`.` segments.  The concrete
conjuncts are the claim's own `../` examples checked through `parseSingle`
end to end, plus a `./` example both at the rewrite level and end to
end. -/
theorem claim_C6_relative_path :
    (∀ (dirs : List (List Char)) (file : List Char) (m : Nat) (rest : List (List Char)),
      1 ≤ m → rest ≠ [] →
      (∀ s ∈ rest, (∀ c ∈ s, c ≠ '/') ∧ s ≠ "..".data) →
      (∀ s ∈ dirs, ∀ c ∈ s, c ≠ '/') →
      (∀ c ∈ file, c ≠ '/') →
      relativeRewrite ⟨joinChar '/' (List.replicate m "..".data ++ rest)⟩
          (some ⟨joinChar '/' (dirs ++ [file])⟩) =
        .ok ⟨joinChar '/' (dirs.take (dirs.length - m) ++
          rest.filter (fun s => s != ".".data))⟩) ∧
    (∀ (dirs : List (List Char)) (file : List Char) (rest : List (List Char)),
      rest ≠ [] →
      (∀ s ∈ rest, (∀ c ∈ s, c ≠ '/') ∧ s ≠ "..".data) →
      (∀ s ∈ dirs, ∀ c ∈ s, c ≠ '/') →
      (∀ c ∈ file, c ≠ '/') →
      relativeRewrite ⟨joinChar '/' (".".data :: rest)⟩
          (some ⟨joinChar '/' (dirs ++ [file])⟩) =
        .ok ⟨joinChar '/' (dirs ++ rest.filter (fun s => s != ".".data))⟩) ∧
    relativeRewrite "./sibling" (some "/blog/post") = .ok "/blog/sibling" ∧
    resultName (parseSingle optsTest ilNone pdEmpty st0 "[[./a-blog-post.md]]"
      (some "/blog/some-page")) = some "/blog/a-blog-post" ∧
    resultName (parseSingle optsTest ilNone pdEmpty st0 "[[../a-blog-post.md]]"
      (some "/blog/sub-dir/some-page")) = some "/blog/a-blog-post" ∧
    resultName (parseSingle optsTest ilNone pdEmpty st0 "[[../../a-blog-post.md]]"
      (some "/blog/sub-dir/sub-dir/some-page")) = some "/blog/a-blog-post" := by
  refine ⟨?_, ?_, by decide, by decide, by decide, by decide⟩
  · intro dirs file m rest hm hrest hrestc hdirs hfile
    rcases m with _ | mm
    · omega
    have hne2 : List.replicate mm "..".data ++ rest ≠ [] := by
      intro hh
      rcases List.append_eq_nil.mp hh with ⟨-, hr⟩
      exact hrest hr
    rcases hsh : List.replicate mm "..".data ++ rest with _ | ⟨s2, r2⟩
    · exact absurd hsh hne2
    have hrepl : List.replicate (mm + 1) "..".data ++ rest =
        "..".data :: (List.replicate mm "..".data ++ rest) := by
      rw [List.replicate_succ, List.cons_append]
    have hnamedata : joinChar '/' (List.replicate (mm + 1) "..".data ++ rest) =
        '.' :: '.' :: '/' :: joinChar '/' (s2 :: r2) := by
      rw [hrepl, hsh, joinChar_cons_cons]
      rfl
    have hstartsRel :
        jsStartsWith ⟨joinChar '/' (List.replicate (mm + 1) "..".data ++ rest)⟩ "../" = true := by
      unfold jsStartsWith
      rw [List.isPrefixOf_iff_prefix]
      show "../".data <+: joinChar '/' (List.replicate (mm + 1) "..".data ++ rest)
      rw [hnamedata]
      exact ⟨joinChar '/' (s2 :: r2), rfl⟩
    have hstartsDot :
        jsStartsWith ⟨joinChar '/' (List.replicate (mm + 1) "..".data ++ rest)⟩ "." = true := by
      unfold jsStartsWith
      rw [List.isPrefixOf_iff_prefix]
      show ".".data <+: joinChar '/' (List.replicate (mm + 1) "..".data ++ rest)
      rw [hnamedata]
      exact ⟨'.' :: '/' :: joinChar '/' (s2 :: r2), rfl⟩
    have hcond : (isPathOf ⟨joinChar '/' (List.replicate (mm + 1) "..".data ++ rest)⟩ &&
        jsStartsWith ⟨joinChar '/' (List.replicate (mm + 1) "..".data ++ rest)⟩ ".") = true := by
      unfold isPathOf
      rw [hstartsRel, hstartsDot]
      simp
    unfold relativeRewrite
    rw [if_pos hcond]
    dsimp only
    have hsplit1 : splitOnChar '/' (joinChar '/' (dirs ++ [file])) = dirs ++ [file] := by
      apply splitOnChar_joinChar
      · simp
      · intro s hs c hcmem
        rcases List.mem_append.mp hs with h | h
        · exact hdirs s h c hcmem
        · have hsf : s = file := List.mem_singleton.mp h
          rw [hsf] at hcmem
          exact hfile c hcmem
    have hsplit2 : splitOnChar '/' (joinChar '/' (List.replicate (mm + 1) "..".data ++ rest)) =
        List.replicate (mm + 1) "..".data ++ rest := by
      apply splitOnChar_joinChar
      · rw [hrepl]; simp
      · intro s hs c hcmem
        rcases List.mem_append.mp hs with h | h
        · have hsd : s = "..".data := List.eq_of_mem_replicate h
          rw [hsd] at hcmem
          have : c = '.' := by simpa using hcmem
          rw [this]
          decide
        · exact (hrestc s h).1 c hcmem
    rw [hsplit1, hsplit2]
    have hfilter1 : (List.replicate (mm + 1) "..".data ++ rest).filter
        (fun f => f == "..".data) = List.replicate (mm + 1) "..".data := by
      rw [List.filter_append]
      have h1 : (List.replicate (mm + 1) "..".data).filter (fun f => f == "..".data) =
          List.replicate (mm + 1) "..".data :=
        List.filter_eq_self.mpr (fun a ha => by
          rw [List.eq_of_mem_replicate ha]
          exact beq_self_eq_true _)
      have h2 : rest.filter (fun f => f == "..".data) = [] :=
        List.filter_eq_nil_iff.mpr (fun a ha => by
          intro hh
          exact (hrestc a ha).2 (by simpa using hh))
      rw [h1, h2, List.append_nil]
    rw [hfilter1, List.length_replicate]
    have htake : (dirs ++ [file]).take ((dirs ++ [file]).length - (mm + 1 + 1)) =
        dirs.take (dirs.length - (mm + 1)) := by
      rw [List.length_append, List.length_singleton]
      have harith : dirs.length + 1 - (mm + 1 + 1) = dirs.length - (mm + 1) := by omega
      rw [harith, List.take_append_eq_append_take]
      have h0 : dirs.length - (mm + 1) - dirs.length = 0 := by omega
      rw [h0, List.take_zero, List.append_nil]
    rw [htake]
    have hfilter2 : (List.replicate (mm + 1) "..".data ++ rest).filter
        (fun f => f != "..".data && f != ".".data) = rest.filter (fun s => s != ".".data) := by
      rw [List.filter_append]
      have h1 : (List.replicate (mm + 1) "..".data).filter
          (fun f => f != "..".data && f != ".".data) = [] :=
        List.filter_eq_nil_iff.mpr (fun a ha => by
          rw [List.eq_of_mem_replicate ha]
          simp)
      have h2 : rest.filter (fun f => f != "..".data && f != ".".data) =
          rest.filter (fun s => s != ".".data) := by
        apply List.filter_congr
        intro a ha
        have hbne : (a != "..".data) = true := bne_iff_ne.mpr (hrestc a ha).2
        rw [hbne, Bool.true_and]
      rw [h1, h2, List.nil_append]
    rw [hfilter2]
  · intro dirs file rest hrest hrestc hdirs hfile
    cases rest with
    | nil => exact absurd rfl hrest
    | cons s2 r2 =>
      have hnamedata : joinChar '/' (".".data :: s2 :: r2) =
          '.' :: '/' :: joinChar '/' (s2 :: r2) := rfl
      have hstartsDS : jsStartsWith ⟨joinChar '/' (".".data :: s2 :: r2)⟩ "./" = true := by
        unfold jsStartsWith
        rw [List.isPrefixOf_iff_prefix]
        show "./".data <+: joinChar '/' (".".data :: s2 :: r2)
        rw [hnamedata]
        exact ⟨joinChar '/' (s2 :: r2), rfl⟩
      have hstartsDot : jsStartsWith ⟨joinChar '/' (".".data :: s2 :: r2)⟩ "." = true := by
        unfold jsStartsWith
        rw [List.isPrefixOf_iff_prefix]
        show ".".data <+: joinChar '/' (".".data :: s2 :: r2)
        rw [hnamedata]
        exact ⟨'/' :: joinChar '/' (s2 :: r2), rfl⟩
      have hcond : (isPathOf ⟨joinChar '/' (".".data :: s2 :: r2)⟩ &&
          jsStartsWith ⟨joinChar '/' (".".data :: s2 :: r2)⟩ ".") = true := by
        unfold isPathOf
        rw [hstartsDS, hstartsDot]
        simp
      unfold relativeRewrite
      rw [if_pos hcond]
      dsimp only
      have hsplit1 : splitOnChar '/' (joinChar '/' (dirs ++ [file])) = dirs ++ [file] := by
        apply splitOnChar_joinChar
        · simp
        · intro s hs c hcmem
          rcases List.mem_append.mp hs with h | h
          · exact hdirs s h c hcmem
          · have hsf : s = file := List.mem_singleton.mp h
            rw [hsf] at hcmem
            exact hfile c hcmem
      have hsplit2 : splitOnChar '/' (joinChar '/' (".".data :: s2 :: r2)) =
          ".".data :: s2 :: r2 := by
        apply splitOnChar_joinChar
        · simp
        · intro s hs c hcmem
          rcases List.mem_cons.mp hs with rfl | h
          · have hcd : c = '.' := by simpa using hcmem
            rw [hcd]
            decide
          · exact (hrestc s h).1 c hcmem
      rw [hsplit1, hsplit2]
      have hfilter1 : ((".".data :: s2 :: r2).filter (fun f => f == "..".data)) = [] := by
        apply List.filter_eq_nil_iff.mpr
        intro a ha
        rcases List.mem_cons.mp ha with rfl | h
        · decide
        · intro hh
          exact (hrestc a h).2 (by simpa using hh)
      rw [hfilter1]
      have htake : (dirs ++ [file]).take
          ((dirs ++ [file]).length - (List.length ([] : List (List Char)) + 1)) = dirs := by
        rw [List.length_append, List.length_singleton, List.length_nil]
        have h01 : dirs.length + 1 - (0 + 1) = dirs.length := by omega
        rw [h01, List.take_left]
      rw [htake]
      have hfilter2 : ((".".data :: s2 :: r2).filter
          (fun f => f != "..".data && f != ".".data)) =
          (s2 :: r2).filter (fun s => s != ".".data) := by
        rw [List.filter_cons]
        have hhd : ((".".data != "..".data) && (".".data != ".".data)) = false := by decide
        rw [hhd]
        simp only [Bool.false_eq_true, if_false]
        apply List.filter_congr
        intro a ha
        have hbne : (a != "..".data) = true := bne_iff_ne.mpr (hrestc a ha).2
        rw [hbne, Bool.true_and]
      rw [hfilter2]

/-- Closed witness for C6: the single-step-back `../` conjunct applied at
the claim's own example, and the `./` conjunct applied at the sibling
example. -/
theorem claim_C6_witness :
    (relativeRewrite ⟨joinChar '/' (List.replicate 1 "..".data ++ ["a-blog-post".data])⟩
        (some ⟨joinChar '/' (["".data, "blog".data, "sub-dir".data] ++ ["some-page".data])⟩) =
      .ok ⟨joinChar '/' ((["".data, "blog".data, "sub-dir".data]).take
          (["".data, "blog".data, "sub-dir".data].length - 1) ++
        (["a-blog-post".data]).filter (fun s => s != ".".data))⟩) ∧
    relativeRewrite ⟨joinChar '/' (".".data :: ["sibling".data])⟩
        (some ⟨joinChar '/' (["".data, "blog".data] ++ ["post".data])⟩) =
      .ok ⟨joinChar '/' (["".data, "blog".data] ++
        (["sibling".data]).filter (fun s => s != ".".data))⟩ :=
  ⟨claim_C6_relative_path.1 ["".data, "blog".data, "sub-dir".data] "some-page".data 1
    ["a-blog-post".data] (by decide) (by decide) (by decide) (by decide) (by decide),
   claim_C6_relative_path.2.1 ["".data, "blog".data] "post".data ["sibling".data]
    (by decide) (by decide) (by decide) (by decide)⟩

theorem takeWhile_all (p : Char → Bool) (l : List Char) (h : ∀ c ∈ l, p c = true) :
    l.takeWhile p = l := by
  induction l with
  | nil => rfl
  | cons c rest ih =>
    rw [List.takeWhile_cons, h c (List.mem_cons_self c rest)]
    simp only [if_true]
    rw [ih (fun a ha => h a (List.mem_cons_of_mem c ha))]

theorem takeWhile_append_stop (p : Char → Bool) (x : List Char) (b : Char) (r : List Char)
    (hx : ∀ c ∈ x, p c = true) (hb : p b = false) :
    (x ++ b :: r).takeWhile p = x := by
  induction x with
  | nil =>
    rw [List.nil_append, List.takeWhile_cons, hb]
    rfl
  | cons c rest ih =>
    rw [List.cons_append, List.takeWhile_cons, hx c (List.mem_cons_self c rest)]
    simp only [if_true]
    rw [ih (fun a ha => hx a (List.mem_cons_of_mem c ha))]

theorem contains_eq_false_of_not_mem {c : Char} {l : List Char} (h : c ∉ l) :
    l.contains c = false := by
  cases hc : l.contains c with
  | false => rfl
  | true => exact absurd (contains_iff_mem.mp hc) h

theorem yScan_spec (l : List Char) (n : Nat) (h : yScan l = some n) :
    ∃ y, y ≠ [] ∧ '\n' ∉ y ∧ n = y.length + 2 ∧ l.take n = y ++ [']', ']'] := by
  induction l generalizing n with
  | nil => simp [yScan] at h
  | cons c rest ih =>
    unfold yScan at h
    by_cases hc : (c == '\n') = true
    · rw [if_pos hc] at h; simp at h
    · rw [if_neg hc] at h
      have hcne : c ≠ '\n' := by
        intro hh; exact hc (by simp [hh])
      by_cases hcl : (rest.take 2 == [']', ']']) = true
      · rw [if_pos hcl] at h
        have hn : n = 3 := (Option.some.inj h).symm
        have ht2 : rest.take 2 = [']', ']'] := by simpa using hcl
        refine ⟨[c], by simp, by simpa using Ne.symm hcne, by simp [hn], ?_⟩
        rw [hn, List.take_succ_cons, ht2]
        rfl
      · rw [if_neg hcl] at h
        cases hys : yScan rest with
        | none => rw [hys] at h; simp at h
        | some k =>
          rw [hys] at h
          have hn : n = k + 1 := by simpa using h.symm
          obtain ⟨y, hy1, hy2, hy3, hy4⟩ := ih k hys
          refine ⟨c :: y, by simp, ?_, ?_, ?_⟩
          · simp only [List.mem_cons, not_or]
            exact ⟨fun hh => hcne hh.symm, hy2⟩
          · simp only [List.length_cons]
            omega
          · rw [hn, List.take_succ_cons, hy4, List.cons_append]

theorem xScan_spec (l : List Char) (n : Nat) (h : xScan l = some n) :
    ∃ x tail, x ≠ [] ∧ '\n' ∉ x ∧ '|' ∉ x ∧ l.take n = x ++ tail ∧
      n = x.length + tail.length ∧
      (tail = [']', ']'] ∨ ∃ y, y ≠ [] ∧ '\n' ∉ y ∧ tail = '|' :: (y ++ [']', ']'])) := by
  induction l generalizing n with
  | nil => simp [xScan] at h
  | cons c rest ih =>
    unfold xScan at h
    by_cases hc : (c == '|' || c == '\n') = true
    · rw [if_pos hc] at h; simp at h
    · rw [if_neg hc] at h
      have hcpipe : c ≠ '|' := by
        intro hh; exact hc (by simp [hh])
      have hcnl : c ≠ '\n' := by
        intro hh; exact hc (by simp [hh])
      split at h
      · -- pipe-and-title arm: the name part is `'|' :: rtail` and the title
        -- scan succeeds with `k`
        rename_i rold aopt rtail k hy
        have hn : n = k + 2 := (Option.some.inj h).symm
        have hyk : yScan rtail = some k := hy
        obtain ⟨y, hy1, hy2, hy3, hy4⟩ := yScan_spec rtail k hyk
        refine ⟨[c], '|' :: (y ++ [']', ']']), by simp, by simpa using Ne.symm hcnl,
          by simpa using Ne.symm hcpipe, ?_, ?_, Or.inr ⟨y, hy1, hy2, rfl⟩⟩
        · rw [hn, List.take_succ_cons, List.take_succ_cons, hy4]
          rfl
        · simp only [List.length_singleton, List.length_cons, List.length_append,
            List.length_nil]
          omega
      · -- close-or-extend arm
        rename_i rest2 rold aopt hneg
        by_cases hcl : (rest2.take 2 == [']', ']']) = true
        · rw [if_pos hcl] at h
          have hn : n = 3 := (Option.some.inj h).symm
          have ht2 : rest2.take 2 = [']', ']'] := by simpa using hcl
          refine ⟨[c], [']', ']'], by simp, by simpa using Ne.symm hcnl,
            by simpa using Ne.symm hcpipe, ?_, by simp [hn], Or.inl rfl⟩
          rw [hn, List.take_succ_cons, ht2]
          rfl
        · rw [if_neg hcl] at h
          cases hxs : xScan rest2 with
          | none => rw [hxs] at h; simp at h
          | some k =>
            rw [hxs] at h
            have hn : n = k + 1 := by simpa using h.symm
            obtain ⟨x, tail, hx1, hx2, hx3, hx4, hx5, hx6⟩ := ih k hxs
            refine ⟨c :: x, tail, by simp, ?_, ?_, ?_, ?_, hx6⟩
            · simp only [List.mem_cons, not_or]
              exact ⟨fun hh => hcnl hh.symm, hx2⟩
            · simp only [List.mem_cons, not_or]
              exact ⟨fun hh => hcpipe hh.symm, hx3⟩
            · rw [hn, List.take_succ_cons, hx4, List.cons_append]
            · simp only [List.length_cons]
              omega

theorem specInnerForm_intro (x rest2 : List Char)
    (hx1 : x ≠ []) (hx2 : '\n' ∉ x) (hx3 : '|' ∉ x)
    (hcase : rest2 = [] ∨ ∃ y, rest2 = '|' :: y ∧ y ≠ [] ∧ '\n' ∉ y) :
    specInnerForm ('[' :: '[' :: ((x ++ rest2) ++ [']', ']'])) = true := by
  have hlen : ('[' :: '[' :: ((x ++ rest2) ++ [']', ']'])).length =
      x.length + rest2.length + 4 := by
    simp only [List.length_cons, List.length_append, List.length_nil]
    try omega
  have hxpos : 1 ≤ x.length := List.length_pos.mpr hx1
  have hinner : List.take (('[' :: '[' :: ((x ++ rest2) ++ [']', ']'])).length - 4)
      (List.drop 2 ('[' :: '[' :: ((x ++ rest2) ++ [']', ']']))) = x ++ rest2 := by
    rw [hlen]
    have hdrop2 : List.drop 2 ('[' :: '[' :: ((x ++ rest2) ++ [']', ']'])) =
        (x ++ rest2) ++ [']', ']'] := rfl
    rw [hdrop2]
    have harith : x.length + rest2.length + 4 - 4 = (x ++ rest2).length := by
      simp only [List.length_append]
      omega
    rw [harith, List.take_left]
  have hxall : ∀ c ∈ x, (c != '|') = true := fun c hc =>
    bne_iff_ne.mpr (fun hh => hx3 (hh ▸ hc))
  have hxemp : x.isEmpty = false := by
    cases x with
    | nil => exact absurd rfl hx1
    | cons a b => rfl
  have hxcont : x.contains '\n' = false := contains_eq_false_of_not_mem hx2
  unfold specInnerForm
  simp only [Bool.and_eq_true, beq_iff_eq, decide_eq_true_eq, ge_iff_le]
  refine ⟨⟨⟨rfl, ?_⟩, ?_⟩, ?_⟩
  · rw [hlen]
    omega
  · rw [hlen]
    have harith : x.length + rest2.length + 4 - 2 =
        ('[' :: '[' :: (x ++ rest2)).length := by
      simp only [List.length_cons, List.length_append]
      omega
    rw [harith]
    have hshape : ('[' :: '[' :: ((x ++ rest2) ++ [']', ']'])) =
        ('[' :: '[' :: (x ++ rest2)) ++ [']', ']'] := by simp
    rw [hshape, List.drop_left]
  · rw [hinner]
    rcases hcase with rfl | ⟨y, rfl, hy1, hy2⟩
    · rw [List.append_nil, takeWhile_all _ x hxall, List.drop_length, hxemp, hxcont]
      exact ⟨⟨rfl, rfl⟩, rfl⟩
    · rw [takeWhile_append_stop _ x '|' y hxall (by decide), List.drop_left, hxemp, hxcont]
      refine ⟨⟨rfl, rfl⟩, ?_⟩
      have hyemp : y.isEmpty = false := by
        cases y with
        | nil => exact absurd rfl hy1
        | cons a b => rfl
      dsimp only
      rw [hyemp, contains_eq_false_of_not_mem hy2]
      decide

theorem specTokenForm_intro (bang : Bool) (x tail : List Char)
    (hx1 : x ≠ []) (hx2 : '\n' ∉ x) (hx3 : '|' ∉ x)
    (ht : tail = [']', ']'] ∨ ∃ y, y ≠ [] ∧ '\n' ∉ y ∧ tail = '|' :: (y ++ [']', ']'])) :
    specTokenForm ⟨(if bang then ['!'] else []) ++ '[' :: '[' :: (x ++ tail)⟩ = true := by
  have hsplit : ∃ rest2, x ++ tail = (x ++ rest2) ++ [']', ']'] ∧
      (rest2 = [] ∨ ∃ y, rest2 = '|' :: y ∧ y ≠ [] ∧ '\n' ∉ y) := by
    rcases ht with rfl | ⟨y, hy1, hy2, rfl⟩
    · exact ⟨[], by simp, Or.inl rfl⟩
    · exact ⟨'|' :: y, by simp, Or.inr ⟨y, rfl, hy1, hy2⟩⟩
  obtain ⟨rest2, he, hcase⟩ := hsplit
  unfold specTokenForm
  cases bang with
  | true =>
    have hsw : jsStartsWith ⟨(if true then ['!'] else []) ++
        '[' :: '[' :: (x ++ tail)⟩ "!" = true := by
      simp [jsStartsWith, List.isPrefixOf]
    rw [if_pos hsw]
    show specInnerForm ('[' :: '[' :: (x ++ tail)) = true
    rw [he]
    exact specInnerForm_intro x rest2 hx1 hx2 hx3 hcase
  | false =>
    have hsw : jsStartsWith ⟨(if false then ['!'] else []) ++
        '[' :: '[' :: (x ++ tail)⟩ "!" = false := by
      simp [jsStartsWith, List.isPrefixOf]
    rw [if_neg (by simp only [hsw]; decide)]
    show specInnerForm ('[' :: '[' :: (x ++ tail)) = true
    rw [he]
    exact specInnerForm_intro x rest2 hx1 hx2 hx3 hcase

theorem matchAt_spec (cs : List Char) (i n : Nat) (h : matchAt cs i = some n) :
    specTokenForm ⟨(cs.drop i).take n⟩ = true := by
  unfold matchAt at h
  split at h
  · split at h
    · rename_i xold rest heq
      cases hx : xScan rest with
      | none => rw [hx] at h; simp at h
      | some k =>
        rw [hx] at h
        simp only [Option.map_some'] at h
        have hn : n = k + 3 := (Option.some.inj h).symm
        obtain ⟨x, tail, h1, h2, h3, h4, h5, h6⟩ := xScan_spec rest k hx
        rw [heq, hn]
        have htk : ('!' :: '[' :: '[' :: rest).take (k + 3) =
            '!' :: '[' :: '[' :: rest.take k := by
          rw [List.take_succ_cons, List.take_succ_cons, List.take_succ_cons]
        rw [htk, h4]
        have hfin := specTokenForm_intro true x tail h1 h2 h3 h6
        simpa using hfin
    · rename_i xold rest heq
      cases hx : xScan rest with
      | none => rw [hx] at h; simp at h
      | some k =>
        rw [hx] at h
        simp only [Option.map_some'] at h
        have hn : n = k + 2 := (Option.some.inj h).symm
        obtain ⟨x, tail, h1, h2, h3, h4, h5, h6⟩ := xScan_spec rest k hx
        rw [heq, hn]
        have htk : ('[' :: '[' :: rest).take (k + 2) = '[' :: '[' :: rest.take k := by
          rw [List.take_succ_cons, List.take_succ_cons]
        rw [htk, h4]
        have hfin := specTokenForm_intro false x tail h1 h2 h3 h6
        simpa using hfin
    · simp at h
  · simp at h

theorem scanAux_sound (cs : List Char) (fuel : Nat) :
    ∀ (i : Nat) (tok : String), tok ∈ scanAux cs fuel i →
      ∃ j n, matchAt cs j = some n ∧ tok = ⟨(cs.drop j).take n⟩ := by
  induction fuel with
  | zero => intro i tok h; simp [scanAux] at h
  | succ f ih =>
    intro i tok h
    unfold scanAux at h
    split at h
    · split at h
      · rename_i n hm
        rcases List.mem_cons.mp h with rfl | hmem
        · exact ⟨i, n, hm, rfl⟩
        · exact ih _ tok hmem
      · exact ih _ tok h
    · simp at h

/-- Counterexample for claim C9.  The document `!![[x]]` contains the
substring `[[x]]` (at offset 2), which has the claimed token form and has no
leading `!` (so the claim's only side condition is vacuous); yet the
extractor produces no token at all, because the `(?<!!)` lookbehind also
vetoes a plain `[[` match whose position is directly preceded by `!`. -/
theorem claim_C9_counterexample :
    specTokenForm "[[x]]" = true ∧
    "!![[x]]".data.drop 2 = "[[x]]".data ∧
    jsStartsWith "[[x]]" "!" = false ∧
    findTokens "!![[x]]" = [] ∧
    "[[x]]" ∉ findTokens "!![[x]]" := by
  refine ⟨by decide, by decide, by decide, by decide, by decide⟩

/-- Claim C9 as amended.  Soundness of the extractor against the claimed
grammar: every extracted token has the form `(!)?[[X(|Y)?]]` with `X`
nonempty, pipe-free and newline-free and `Y` (when present) nonempty and
newline-free; and the claim's concrete consequences hold: the two documents
with embedded newlines yield no token, and the non-ASCII document yields
exactly its single token.  (The converse direction of the claim's `iff`
fails, as the counterexample records.) -/
theorem claim_C9_amended_extractor :
    (∀ (doc tok : String), tok ∈ findTokens doc → specTokenForm tok = true) ∧
    findTokens "[[ broken \nwikilink ]]" = [] ∧
    findTokens "[[\n broken wikilink]]" = [] ∧
    findTokens "[[♡ cinni\u0027\u0027s dream home ♡]]" =
      ["[[♡ cinni\u0027\u0027s dream home ♡]]"] := by
  refine ⟨?_, by decide, by decide, by decide⟩
  intro doc tok h
  obtain ⟨j, n, hm, htok⟩ := scanAux_sound doc.data (doc.data.length + 1) 0 tok h
  rw [htok]
  exact matchAt_spec doc.data j n hm

/-- Closed witness for the amended C9: the single token of `[[a]]` has the
claimed form. -/
theorem claim_C9_witness : specTokenForm "[[a]]" = true :=
  claim_C9_amended_extractor.1 "[[a]]" "[[a]]" (by decide)
